import Mathlib

/-!
Verification of the `pathobject` path-manipulation library.

The library defines a `Path` class bound to a path-syntax module
(`Path._path`, by default `os.path`).  All decomposition primitives are
delegated to that module; the repository's own algorithms are `splitall`
(loop-based decomposition with a defensive fixed-point break) and
`relpathto` (relative-path computation).  Paths are modelled as `List Char`.

The bound syntax module exercised throughout (and used in every example of
the documentation) is the POSIX one, CPython's `posixpath` (Python 2 era:
the code uses `unicode` / `os.getcwdu`).  Its primitives are embedded
faithfully below:

* `posixpath.split(p)`:
    `i = p.rfind('/') + 1; head, tail = p[:i], p[i:]`
    `if head and head != '/'*len(head): head = head.rstrip('/')`
  `p[i:]` (everything after the last `'/'`, or all of `p` when there is
  none) is the longest `'/'`-free suffix of `p`, and `p[:i]` is the rest;
  they are expressed here via `takeWhile`/`dropWhile` on the reversed list.
* `posixpath.join(a, *p)`: left fold of the two-argument join step.
* `posixpath.splitdrive(p) = ('', p)`, `posixpath.normcase(s) = s`,
  `posixpath.isabs(s) = s.startswith('/')`,
  `posixpath.curdir = '.'`, `posixpath.pardir = '..'`.
-/

namespace Pathobject

def sep : Char := '/'

/-- `posixpath.curdir` (`'.'`). -/
def curdir : List Char := ['.']

/-- `posixpath.pardir` (`'..'`). -/
def pardir : List Char := ['.', '.']

/-- Everything after the last separator: `p[p.rfind('/')+1:]`,
the longest separator-free suffix of `p`. -/
def splitTail (p : List Char) : List Char :=
  (p.reverse.takeWhile (fun c => !(c == sep))).reverse

/-- Everything up to and including the last separator: `p[:p.rfind('/')+1]`. -/
def splitHead0 (p : List Char) : List Char :=
  (p.reverse.dropWhile (fun c => !(c == sep))).reverse

/-- `l.rstrip('/')`: remove all trailing separators. -/
def rstripSep (l : List Char) : List Char :=
  (l.reverse.dropWhile (fun c => c == sep)).reverse

/-- `head == '/' * len(head)`: the list consists only of separators. -/
def allSep (l : List Char) : Bool := l.all (fun c => c == sep)

/-- `posixpath.split`. -/
def posix_split (p : List Char) : List Char × List Char :=
  let head := splitHead0 p
  let tail := splitTail p
  if head ≠ [] ∧ allSep head = false then (rstripSep head, tail)
  else (head, tail)

/-- `b.startswith('/')` (false on the empty string, as in Python). -/
def startswithSep (b : List Char) : Bool := b.head? == some sep

/-- `a.endswith('/')` (false on the empty string, as in Python). -/
def endswithSep (a : List Char) : Bool := a.getLast? == some sep

/-- One step of `posixpath.join`: the body of its `for b in p:` loop. -/
def join2 (a b : List Char) : List Char :=
  if startswithSep b then b
  else if a = [] ∨ endswithSep a = true then a ++ b
  else a ++ sep :: b

/-- `posixpath.join(l[0], *l[1:])`: fold the loop step over the arguments. -/
def joinList : List (List Char) → List Char
  | [] => []
  | a :: rest => rest.foldl join2 a

/-- `posixpath.normcase`: the identity on POSIX. -/
def posix_normcase (p : List Char) : List Char := p

/-- `posixpath.splitdrive`: `return '', p`. -/
def posix_splitdrive (p : List Char) : List Char × List Char := ([], p)

/-- `posixpath.isabs`: `return s.startswith('/')`. -/
def posix_isabs (p : List Char) : Bool := startswithSep p

/-- `Path.splitpath`: `parent, child = self._path.split(self)` (POSIX-bound). -/
def splitpath (p : List Char) : List Char × List Char := posix_split p

/-- The loop of `Path.splitall`, indexed by fuel:
`while location not in (curdir, pardir): previous = location;`
`location, child = previous.splitpath(); if location == previous: break;`
`parts.append(child)` — followed by `parts.append(location)` and a reverse.
The recursion produces the final (already reversed) list directly.
`splitall_fuel_sufficient` below proves that fuel `p.length + 1` always
yields a value, so the fuel never runs out for the actual `splitall`. -/
def splitallFuel : Nat → List Char → Option (List (List Char))
  | 0, _ => none
  | n + 1, location =>
    if location = curdir ∨ location = pardir then some [location]
    else
      let pr := posix_split location
      if pr.1 = location then some [location]
      else (splitallFuel n pr.1).map (fun parts => parts ++ [pr.2])

/-- `Path.splitall` (POSIX-bound). -/
def splitall (p : List Char) : List (List Char) :=
  (splitallFuel (p.length + 1) p).getD []

/- ### Basic facts about the split primitives -/

theorem splitHead0_append_splitTail (p : List Char) :
    splitHead0 p ++ splitTail p = p := by
  unfold splitHead0 splitTail
  rw [← List.reverse_append, List.takeWhile_append_dropWhile, List.reverse_reverse]

theorem splitTail_sep_free {p : List Char} {c : Char} (h : c ∈ splitTail p) :
    ¬(c = sep) := by
  unfold splitTail at h
  rw [List.mem_reverse] at h
  have := List.mem_takeWhile_imp h
  simpa using this

theorem dropWhile_head_false (f : Char → Bool) :
    ∀ (l : List Char) {c : Char} {t : List Char},
      l.dropWhile f = c :: t → f c = false := by
  intro l
  induction l with
  | nil => intro c t h; simp [List.dropWhile] at h
  | cons x xs ih =>
      intro c t h
      rw [List.dropWhile_cons] at h
      by_cases hx : f x = true
      · rw [if_pos hx] at h; exact ih h
      · rw [if_neg hx] at h
        cases h
        simpa using hx

theorem dropWhile_length_le (f : Char → Bool) :
    ∀ l : List Char, (l.dropWhile f).length ≤ l.length := by
  intro l
  induction l with
  | nil => simp
  | cons x xs ih =>
      rw [List.dropWhile_cons]
      by_cases hx : f x = true
      · rw [if_pos hx]; simpa using Nat.le_succ_of_le ih
      · rw [if_neg hx]

theorem splitHead0_ends {p : List Char} (h : splitHead0 p ≠ []) :
    endswithSep (splitHead0 p) = true := by
  unfold splitHead0 at *
  rcases hq : p.reverse.dropWhile (fun c => !(c == sep)) with _ | ⟨c, t⟩
  · rw [hq] at h; simp at h
  · have hc : (!(c == sep)) = false := dropWhile_head_false _ _ hq
    have hc' : c = sep := by simpa using hc
    unfold endswithSep
    rw [List.getLast?_reverse]
    simp [hc']

theorem rstripSep_not_ends {l : List Char} (h : rstripSep l ≠ []) :
    endswithSep (rstripSep l) = false := by
  unfold rstripSep at *
  rcases hq : l.reverse.dropWhile (fun c => c == sep) with _ | ⟨c, t⟩
  · rw [hq] at h; simp at h
  · have hc : (c == sep) = false := dropWhile_head_false (fun x => x == sep) _ hq
    have hc' : c ≠ sep := by simpa using hc
    unfold endswithSep
    rw [List.getLast?_reverse]
    simp [hc']

theorem rstripSep_length_lt {l : List Char} (h : endswithSep l = true) :
    (rstripSep l).length < l.length := by
  unfold endswithSep at h
  rcases hr : l.reverse with _ | ⟨c, t⟩
  · have : l = [] := by simpa using congrArg List.reverse hr
    subst this; simp at h
  · have hc : l.getLast? = some c := by
      rw [← List.head?_reverse, hr]; rfl
    rw [hc] at h
    have hcs : c = sep := by simpa using h
    unfold rstripSep
    rw [hr, List.length_reverse]
    have hlen : l.length = t.length + 1 := by
      have := congrArg List.length hr
      simpa [Nat.add_comm] using this
    rw [List.dropWhile_cons, if_pos (by simp [hcs])]
    calc (t.dropWhile (fun c => c == sep)).length ≤ t.length :=
          dropWhile_length_le _ _
      _ < l.length := by omega

/-- The loop measure: when the split does not reach a fixed point, the
parent is strictly shorter than the input. -/
theorem split_decrease {p : List Char} (h : (posix_split p).1 ≠ p) :
    (posix_split p).1.length < p.length := by
  unfold posix_split at *
  by_cases hg : splitHead0 p ≠ [] ∧ allSep (splitHead0 p) = false
  · rw [if_pos hg] at h ⊢
    dsimp only at h ⊢
    have hends := splitHead0_ends hg.1
    have hlt := rstripSep_length_lt hends
    have hle : (splitHead0 p).length ≤ p.length := by
      conv_rhs => rw [← splitHead0_append_splitTail p]
      simp
    omega
  · rw [if_neg hg] at h ⊢
    dsimp only at h ⊢
    have hsum := splitHead0_append_splitTail p
    rcases ht : splitTail p with _ | ⟨c, t⟩
    · exfalso
      apply h
      conv_rhs => rw [← hsum]
      rw [ht]
      simp
    · have := congrArg List.length hsum
      rw [ht] at this
      simp at this
      omega

/-- With fuel exceeding the input's length, the `splitall` loop always
halts with a value. -/
theorem splitall_fuel_sufficient :
    ∀ (n : Nat) (loc : List Char), loc.length < n →
      ∃ parts, splitallFuel n loc = some parts ∧ parts ≠ [] := by
  intro n
  induction n with
  | zero => intro loc h; omega
  | succ m ih =>
      intro loc hlt
      by_cases hstop : loc = curdir ∨ loc = pardir
      · exact ⟨[loc], by rw [splitallFuel, if_pos hstop], by simp⟩
      · by_cases hfix : (posix_split loc).1 = loc
        · exact ⟨[loc], by rw [splitallFuel, if_neg hstop, if_pos hfix], by simp⟩
        · have hdec := split_decrease hfix
          obtain ⟨ps, hps, hne⟩ := ih (posix_split loc).1 (by omega)
          refine ⟨ps ++ [(posix_split loc).2], ?_, by simp⟩
          rw [splitallFuel, if_neg hstop, if_neg hfix, hps]
          rfl

/-- Claim C8: for every input string, the `splitall` decomposition loop
terminates — it stops when the remaining parent is `curdir`/`pardir`, and
the defensive fixed-point break stops it on any non-shrinking input, so the
fuelled loop (fuel `length + 1`, one step per removed character plus the
final step) always returns a value, which is what `splitall` evaluates to.
No input makes the loop run forever (i.e. exhaust any fuel above that
bound). -/
theorem C8_splitall_terminates (p : List Char) :
    splitallFuel (p.length + 1) p = some (splitall p) ∧
      ∀ n, p.length < n → (splitallFuel n p).isSome = true := by
  obtain ⟨parts, hp, -⟩ := splitall_fuel_sufficient (p.length + 1) p (by omega)
  constructor
  · rw [hp]; unfold splitall; rw [hp]; rfl
  · intro n hn
    obtain ⟨ps, hps, -⟩ := splitall_fuel_sufficient n p hn
    rw [hps]; rfl

/- ### Paths without repeated internal separators

`posixpath.split` collapses a run of separators before the basename
(`head.rstrip('/')`) while `posixpath.join` re-inserts a single one, so the
split/join round trips hold exactly on paths whose doubled separators all
sit in the leading run (`//net/x` is fine, `a//b` is not). -/

/-- No two neighbouring characters are both separators. -/
def NoDouble (l : List Char) : Prop :=
  List.Chain' (fun a b => ¬(a = sep ∧ b = sep)) l

/-- A path in which consecutive separators occur only in the leading
separator run: `/a/b`, `//net/x`, `a/b/` qualify; `a//b`, `a//` do not. -/
def GoodPath (p : List Char) : Prop :=
  NoDouble (p.dropWhile (fun c => c == sep))

/-- Executable check for `NoDouble`. -/
def noDoubleB : List Char → Bool
  | a :: b :: rest => (!(a == sep && b == sep)) && noDoubleB (b :: rest)
  | _ => true

theorem noDoubleB_iff : ∀ l : List Char, noDoubleB l = true ↔ NoDouble l
  | [] => by simp [noDoubleB, NoDouble]
  | [a] => by simp [noDoubleB, NoDouble]
  | a :: b :: rest => by
      have ih := noDoubleB_iff (b :: rest)
      unfold NoDouble at ih ⊢
      rw [List.chain'_cons, ← ih]
      show ((!(a == sep && b == sep)) && noDoubleB (b :: rest)) = true ↔ _
      simp only [Bool.and_eq_true, Bool.not_eq_true', Bool.and_eq_false_iff]
      constructor
      · rintro ⟨h1, h2⟩
        refine ⟨?_, h2⟩
        rintro ⟨ha, hb⟩
        rcases h1 with h | h
        · rw [ha] at h; simp at h
        · rw [hb] at h; simp at h
      · rintro ⟨h1, h2⟩
        refine ⟨?_, h2⟩
        by_cases ha : a = sep
        · right
          by_contra hb
          simp only [Bool.not_eq_false, beq_iff_eq] at hb
          exact h1 ⟨ha, hb⟩
        · left
          simpa using ha

instance : DecidablePred GoodPath := fun p =>
  decidable_of_iff (noDoubleB (p.dropWhile (fun c => c == sep)) = true)
    (noDoubleB_iff _)

theorem good_append_left : ∀ (q r : List Char), GoodPath (q ++ r) → GoodPath q := by
  intro q
  induction q with
  | nil => intro r _; unfold GoodPath NoDouble; simp
  | cons x xs ih =>
      intro r hg
      unfold GoodPath at *
      by_cases hx : (x == sep) = true
      · rw [List.cons_append, List.dropWhile_cons, if_pos hx] at hg
        rw [List.dropWhile_cons, if_pos hx]
        exact ih r hg
      · rw [List.cons_append, List.dropWhile_cons, if_neg hx] at hg
        rw [List.dropWhile_cons, if_neg hx]
        unfold NoDouble at *
        have hx2 : x :: (xs ++ r) = (x :: xs) ++ r := by simp
        rw [hx2] at hg
        exact (List.chain'_append.mp hg).1

theorem allSep_iff_dropWhile_nil {q : List Char} :
    allSep q = true ↔ q.dropWhile (fun c => c == sep) = [] := by
  unfold allSep
  rw [List.all_eq_true, List.dropWhile_eq_nil_iff]

theorem rstripSep_append (l : List Char) :
    rstripSep l ++ (l.reverse.takeWhile (fun c => c == sep)).reverse = l := by
  unfold rstripSep
  rw [← List.reverse_append, List.takeWhile_append_dropWhile, List.reverse_reverse]

/-- The parent produced by `posixpath.split` inherits the no-doubled-separator
property (it is an initial segment of the input). -/
theorem good_split_fst {p : List Char} (hg : GoodPath p) : GoodPath (posix_split p).1 := by
  have hp : GoodPath (splitHead0 p) := by
    apply good_append_left _ (splitTail p)
    rw [splitHead0_append_splitTail]
    exact hg
  unfold posix_split
  by_cases hgd : splitHead0 p ≠ [] ∧ allSep (splitHead0 p) = false
  · rw [if_pos hgd]
    dsimp only
    apply good_append_left _ (((splitHead0 p).reverse.takeWhile (fun c => c == sep)).reverse)
    rw [rstripSep_append]
    exact hp
  · rw [if_neg hgd]
    exact hp

/-- Two trailing separators contradict `GoodPath` unless the whole string is
separators. -/
theorem good_no_trailing_pair {q : List Char} (hg : GoodPath q)
    (hna : allSep q = false) {t1 : List Char}
    (hqr : q.reverse = sep :: sep :: t1) : False := by
  have hrne : q.dropWhile (fun c => c == sep) ≠ [] := by
    intro h0
    have hall := allSep_iff_dropWhile_nil.mpr h0
    rw [hall] at hna
    cases hna
  obtain ⟨rc, rt, hrq⟩ : ∃ rc rt, q.dropWhile (fun c => c == sep) = rc :: rt := by
    rcases hq : q.dropWhile (fun c => c == sep) with _ | ⟨rc, rt⟩
    · exact absurd hq hrne
    · exact ⟨rc, rt, rfl⟩
  have hrc : (rc == sep) = false := dropWhile_head_false (fun x => x == sep) _ hrq
  have hdecomp : q.takeWhile (fun c => c == sep) ++ (rc :: rt) = q := by
    rw [← hrq]
    exact List.takeWhile_append_dropWhile _ _
  have hrev2 : (rc :: rt).reverse ++ (q.takeWhile (fun c => c == sep)).reverse = q.reverse := by
    rw [← List.reverse_append, hdecomp]
  rcases hrr : (rc :: rt).reverse with _ | ⟨a, rest⟩
  · have : (rc :: rt).reverse ≠ [] := by simp
    exact this hrr
  · rcases rest with _ | ⟨b, rest2⟩
    · -- the separator-free part is a single character, yet the path ends in sep
      have hrca : rc = a := by
        have hthis := congrArg List.reverse hrr
        rw [List.reverse_reverse] at hthis
        simp at hthis
        exact hthis.1
      rw [hrr, hqr] at hrev2
      simp only [List.cons_append, List.nil_append] at hrev2
      injection hrev2 with ha _
      rw [hrca, ha] at hrc
      simp at hrc
    · -- last two characters of the separator-free part are both sep
      rw [hrr, hqr] at hrev2
      simp only [List.cons_append] at hrev2
      injection hrev2 with ha hrest
      injection hrest with hb _
      have hr2 : rc :: rt = rest2.reverse ++ [b, a] := by
        have hthis := congrArg List.reverse hrr
        rw [List.reverse_reverse] at hthis
        rw [hthis]
        simp
      have hnd : NoDouble (rc :: rt) := by
        unfold GoodPath at hg
        rw [hrq] at hg
        exact hg
      rw [hr2] at hnd
      unfold NoDouble at hnd
      have hpair := (List.chain'_append.mp hnd).2.1
      rw [List.chain'_pair] at hpair
      exact hpair ⟨hb, ha⟩

/-- On a `GoodPath` that ends in a separator and is not all separators, the
trailing separator run has length exactly one. -/
theorem good_trailing {q : List Char} (hg : GoodPath q) (hna : allSep q = false)
    (he : endswithSep q = true) :
    ∃ h, q = h ++ [sep] ∧ h ≠ [] ∧ endswithSep h = false ∧ rstripSep q = h := by
  have hlast : q.getLast? = some sep := by
    unfold endswithSep at he
    simpa using he
  have hrev : q.reverse.head? = some sep := by
    rw [List.head?_reverse]
    exact hlast
  rcases hqr : q.reverse with _ | ⟨c0, t0⟩
  · rw [hqr] at hrev; simp at hrev
  · have hc0 : c0 = sep := by rw [hqr] at hrev; simpa using hrev
    subst hc0
    rcases t0 with _ | ⟨c, t1⟩
    · have hq : q = [sep] := by simpa using congrArg List.reverse hqr
      rw [hq] at hna
      have : allSep [sep] = true := by decide
      rw [this] at hna
      cases hna
    · have hcne : ¬(c = sep) := by
        intro hc
        subst hc
        exact good_no_trailing_pair hg hna hqr
      refine ⟨(c :: t1).reverse, ?_, by simp, ?_, ?_⟩
      · have hthis := congrArg List.reverse hqr
        rw [List.reverse_reverse] at hthis
        rw [hthis, List.reverse_cons]
      · unfold endswithSep
        rw [List.getLast?_reverse]
        simp [hcne]
      · unfold rstripSep
        rw [hqr]
        rw [List.dropWhile_cons, if_pos (by simp)]
        rw [List.dropWhile_cons, if_neg (by simp [hcne])]

/-- The basename never starts with a separator. -/
theorem splitTail_not_startswith (p : List Char) :
    startswithSep (splitTail p) = false := by
  unfold startswithSep
  rcases ht : splitTail p with _ | ⟨c, t⟩
  · rfl
  · have hc : ¬(c = sep) := splitTail_sep_free (ht ▸ List.mem_cons_self c t)
    simp [hc]

/-- Lossless recombination: on a path whose doubled separators are all
leading, `join(split(p))` restores `p` whenever the split made progress or
produced a non-empty basename. -/
theorem split_rejoin {p : List Char} (hg : GoodPath p)
    (hne : (posix_split p).2 ≠ [] ∨ (posix_split p).1 ≠ p) :
    join2 (posix_split p).1 (posix_split p).2 = p := by
  have hstart : startswithSep (splitTail p) = false := splitTail_not_startswith p
  have hsum := splitHead0_append_splitTail p
  unfold posix_split at *
  by_cases hgd : splitHead0 p ≠ [] ∧ allSep (splitHead0 p) = false
  · rw [if_pos hgd] at hne ⊢
    dsimp only at hne ⊢
    have hp : GoodPath (splitHead0 p) := by
      apply good_append_left _ (splitTail p)
      rw [hsum]
      exact hg
    have hends := splitHead0_ends hgd.1
    obtain ⟨h, hh, hhne, hhend, hhr⟩ := good_trailing hp hgd.2 hends
    rw [hhr]
    unfold join2
    rw [if_neg (by rw [hstart]; simp)]
    rw [if_neg (by simp [hhne, hhend])]
    conv_rhs => rw [← hsum]
    rw [hh]
    simp
  · rw [if_neg hgd] at hne ⊢
    dsimp only at hne ⊢
    by_cases h0 : splitHead0 p = []
    · have hpt : splitTail p = p := by
        conv_rhs => rw [← hsum]
        rw [h0]
        simp
      have htne : splitTail p ≠ [] := by
        rcases hne with h | h
        · exact h
        · intro hnil
          apply h
          rw [h0, ← hpt, hnil]
      unfold join2
      rw [if_neg (by rw [hstart]; simp)]
      rw [if_pos (Or.inl h0)]
      rw [h0]
      simpa using hpt
    · have hall : allSep (splitHead0 p) = true := by
        by_contra hq
        exact hgd ⟨h0, by simpa using hq⟩
      have hend0 : endswithSep (splitHead0 p) = true := by
        rcases List.eq_nil_or_concat (splitHead0 p) with h | ⟨l2, a, hconc⟩
        · exact absurd h h0
        · rw [List.concat_eq_append] at hconc
          have ha : a ∈ splitHead0 p := by rw [hconc]; simp
          have := List.all_eq_true.mp hall a ha
          have ha2 : a = sep := by simpa using this
          unfold endswithSep
          rw [hconc, List.getLast?_concat, ha2]
          simp
      unfold join2
      rw [if_neg (by rw [hstart]; simp)]
      rw [if_pos (Or.inr hend0)]
      exact hsum

theorem joinList_concat {l : List (List Char)} (h : l ≠ []) (t : List Char) :
    joinList (l ++ [t]) = join2 (joinList l) t := by
  rcases l with _ | ⟨a, rest⟩
  · exact absurd rfl h
  · show (rest ++ [t]).foldl join2 a = join2 (rest.foldl join2 a) t
    rw [List.foldl_append]
    rfl

/-- Joining up the pieces collected by the `splitall` loop restores the
input, for inputs whose doubled separators are all leading. -/
theorem splitallFuel_joins :
    ∀ (n : Nat) (loc : List Char) (parts : List (List Char)),
      GoodPath loc → splitallFuel n loc = some parts →
      joinList parts = loc ∧ parts ≠ [] := by
  intro n
  induction n with
  | zero => intro loc parts _ h; simp [splitallFuel] at h
  | succ m ih =>
      intro loc parts hg h
      rw [splitallFuel] at h
      by_cases hstop : loc = curdir ∨ loc = pardir
      · rw [if_pos hstop] at h
        injection h with h2
        rw [← h2]
        exact ⟨rfl, by simp⟩
      · rw [if_neg hstop] at h
        dsimp only at h
        by_cases hfix : (posix_split loc).1 = loc
        · rw [if_pos hfix] at h
          injection h with h2
          rw [← h2]
          exact ⟨rfl, by simp⟩
        · rw [if_neg hfix] at h
          rcases hrec : splitallFuel m (posix_split loc).1 with _ | ps
          · rw [hrec] at h; simp at h
          · rw [hrec] at h
            have hp : ps ++ [(posix_split loc).2] = parts := by simpa using h
            obtain ⟨hjoin, hpne⟩ := ih _ ps (good_split_fst hg) hrec
            rw [← hp]
            constructor
            · rw [joinList_concat hpne, hjoin]
              exact split_rejoin hg (Or.inr hfix)
            · simp

/-- Convenience: build a character list from a string literal. -/
def s2l (s : String) : List Char := s.data

/-- Claim C1 (amended): for every path `p` in which consecutive separators
occur only in the leading separator run, `p.splitall()` returns
`[root, c1, ..., cn]` with `root.joinpath(c1, ..., cn) == p`.  (As stated
for *every* path the claim fails: see `C1_splitall_counterexample`, the
split collapses doubled internal separators.) -/
theorem C1_splitall_rejoin (p : List Char) (hg : GoodPath p) :
    joinList (splitall p) = p := by
  obtain ⟨parts, hp, -⟩ := splitall_fuel_sufficient (p.length + 1) p (by omega)
  have hs : splitall p = parts := by unfold splitall; rw [hp]; rfl
  rw [hs]
  exact (splitallFuel_joins _ _ _ hg hp).1

/-- Witness for C1 at the documentation's own example path. -/
theorem C1_splitall_rejoin_witness :
    GoodPath (s2l "/home/guido/python.tar.gz") ∧
      joinList (splitall (s2l "/home/guido/python.tar.gz")) =
        s2l "/home/guido/python.tar.gz" :=
  ⟨by decide, C1_splitall_rejoin _ (by decide)⟩

/-- Counterexample to C1 as stated: at `a//b`, `splitall` yields
`['', 'a', 'b']` and re-joining gives `a/b`, not `a//b`. -/
theorem C1_splitall_counterexample :
    joinList (splitall (s2l "a//b")) ≠ s2l "a//b" := by decide

/-- Claim C2 (amended): for every path `p` in which consecutive separators
occur only in the leading separator run, if `(parent, basename) =
p.splitpath()` and `basename` is non-empty then
`parent.joinpath(basename) == p`.  (As stated for *every* path the claim
fails: see `C2_splitpath_counterexample`.) -/
theorem C2_splitpath_rejoin (p : List Char) (hg : GoodPath p)
    (h : (splitpath p).2 ≠ []) :
    join2 (splitpath p).1 (splitpath p).2 = p :=
  split_rejoin hg (Or.inl h)

/-- Witness for C2 at the documentation's own example path. -/
theorem C2_splitpath_rejoin_witness :
    GoodPath (s2l "/usr/local/lib") ∧ (splitpath (s2l "/usr/local/lib")).2 ≠ [] ∧
      join2 (splitpath (s2l "/usr/local/lib")).1 (splitpath (s2l "/usr/local/lib")).2 =
        s2l "/usr/local/lib" :=
  ⟨by decide, by decide, C2_splitpath_rejoin _ (by decide) (by decide)⟩

/-- Counterexample to C2 as stated: at `a//b` the split is `('a', 'b')`
with non-empty basename, but `join('a', 'b') = 'a/b' ≠ 'a//b'`. -/
theorem C2_splitpath_counterexample :
    ¬ ((splitpath (s2l "a//b")).2 ≠ [] →
        join2 (splitpath (s2l "a//b")).1 (splitpath (s2l "a//b")).2 = s2l "a//b") := by
  decide

/-- Claim C7: under the POSIX syntax (no drive concept) the drive part is
always the empty path and the remainder is the path itself:
`p.splitdrive() == (Path(''), p)`.  `Path.splitdrive` returns
`(type(self)(drive), rel)` where `drive, rel = posixpath.splitdrive(p)`. -/
theorem C7_splitdrive_no_drive (p : List Char) :
    posix_splitdrive p = ([], p) := rfl

/- ### `splitext` (CPython's `genericpath._splitext` for the POSIX module) -/

/-- Last index of `c` in the list, if any (`p.rfind(c)` when present). -/
def rfindAux (c : Char) : List Char → Option Nat
  | [] => none
  | x :: xs =>
    match rfindAux c xs with
    | some j => some (j + 1)
    | none => if x = c then some 0 else none

/-- `p.rfind(c)`: the last index of `c`, or `-1` when absent. -/
def rfindIdx (c : Char) (p : List Char) : Int :=
  match rfindAux c p with
  | some i => (i : Int)
  | none => -1

/-- `posixpath.splitext(p)`, i.e. `genericpath._splitext(p, '/', None, '.')`
(CPython ≥ 2.6, the interpreter family this Python 2 code runs on):
`sepIndex = p.rfind('/')`, `dotIndex = p.rfind('.')`; when
`dotIndex > sepIndex`, the while-loop scans `p[sepIndex+1 : dotIndex]` (the
basename's prefix before its last dot) and splits at `dotIndex` as soon as a
non-dot is seen — so a window of only dots (a leading-dots filename such as
`.bashrc`) yields no extension; otherwise the extension is empty. -/
def posix_splitext (p : List Char) : List Char × List Char :=
  let sepIndex := rfindIdx sep p
  let dotIndex := rfindIdx '.' p
  if sepIndex < dotIndex then
    let window := (p.take dotIndex.toNat).drop (sepIndex + 1).toNat
    if window.any (fun ch => !(ch == '.')) then
      (p.take dotIndex.toNat, p.drop dotIndex.toNat)
    else (p, [])
  else (p, [])

/-- `Path.splitext`: `filename, extension = self._path.splitext(self)`. -/
def splitext (p : List Char) : List Char × List Char := posix_splitext p

/-- `Path.stripext`: `return self.splitext()[0]`. -/
def stripext (p : List Char) : List Char := (splitext p).1

/-- The `Path.ext` property: `self._path.splitext(self)[1]`. -/
def ext (p : List Char) : List Char := (posix_splitext p).2

/-- Index-free reference form of `splitext`, phrased on the basename. -/
def splitextSpec (p : List Char) : List Char × List Char :=
  match rfindAux '.' (splitTail p) with
  | none => (p, [])
  | some d =>
    if ((splitTail p).take d).any (fun ch => !(ch == '.')) then
      (splitHead0 p ++ (splitTail p).take d, (splitTail p).drop d)
    else (p, [])

theorem rfindAux_eq_none_iff {c : Char} : ∀ {l : List Char},
    rfindAux c l = none ↔ c ∉ l := by
  intro l
  induction l with
  | nil => simp [rfindAux]
  | cons x xs ih =>
      rw [rfindAux]
      rcases h : rfindAux c xs with _ | j
      · have hx : c ∉ xs := ih.mp h
        by_cases hxc : x = c
        · simp [hxc]
        · simp [hxc, hx, Ne.symm hxc]
      · have hx : c ∈ xs := by
          by_contra hmem
          rw [ih.mpr hmem] at h
          cases h
        simp [hx]

theorem rfindAux_drop {c : Char} : ∀ {l : List Char} {d : Nat},
    rfindAux c l = some d → ∃ t, l.drop d = c :: t ∧ c ∉ t := by
  intro l
  induction l with
  | nil => intro d h; simp [rfindAux] at h
  | cons x xs ih =>
      intro d h
      rw [rfindAux] at h
      rcases hin : rfindAux c xs with _ | j
      · rw [hin] at h
        by_cases hxc : x = c
        · rw [if_pos hxc] at h
          injection h with h2
          subst hxc
          rw [← h2]
          exact ⟨xs, rfl, rfindAux_eq_none_iff.mp hin⟩
        · rw [if_neg hxc] at h; cases h
      · rw [hin] at h
        injection h with h2
        obtain ⟨t, ht, hnt⟩ := ih hin
        exact ⟨t, by rw [← h2]; simpa using ht, hnt⟩

theorem rfindAux_bound {c : Char} : ∀ {l : List Char} {d : Nat},
    rfindAux c l = some d → d < l.length := by
  intro l d h
  obtain ⟨t, ht, -⟩ := rfindAux_drop h
  by_contra hge
  rw [List.drop_eq_nil_of_le (by omega)] at ht
  cases ht

theorem rfindAux_last {c : Char} : ∀ (u v : List Char), c ∉ v →
    rfindAux c (u ++ c :: v) = some u.length := by
  intro u
  induction u with
  | nil =>
      intro v hv
      rw [List.nil_append, rfindAux, rfindAux_eq_none_iff.mpr hv]
      simp
  | cons x u' ih =>
      intro v hv
      rw [List.cons_append, rfindAux, ih v hv]
      simp

theorem rfindAux_append (c : Char) (l₁ l₂ : List Char) :
    rfindAux c (l₁ ++ l₂) =
      match rfindAux c l₂ with
      | some j => some (l₁.length + j)
      | none => rfindAux c l₁ := by
  induction l₁ with
  | nil =>
      rcases h : rfindAux c l₂ with _ | j
      · simp [h, rfindAux]
      · simp [h]
  | cons x l₁' ih =>
      rw [List.cons_append, rfindAux, ih, rfindAux]
      rcases h : rfindAux c l₂ with _ | j
      · rfl
      · simp [Nat.add_assoc, Nat.add_comm]

/-- `p.rfind('/')` in terms of the head/tail decomposition: it is one less
than the length of `p[:p.rfind('/')+1]`. -/
theorem rfindIdx_sep (p : List Char) :
    rfindIdx sep p = ((splitHead0 p).length : Int) - 1 := by
  have hsum := splitHead0_append_splitTail p
  by_cases h0 : splitHead0 p = []
  · have hnosep : sep ∉ p := by
      intro hmem
      have hmem2 : sep ∈ splitHead0 p ++ splitTail p := by rw [hsum]; exact hmem
      rw [h0] at hmem2
      simp at hmem2
      exact splitTail_sep_free hmem2 rfl
    unfold rfindIdx
    rw [rfindAux_eq_none_iff.mpr hnosep, h0]
    rfl
  · have hend := splitHead0_ends h0
    rcases List.eq_nil_or_concat (splitHead0 p) with h | ⟨l2, a, hconc⟩
    · exact absurd h h0
    · rw [List.concat_eq_append] at hconc
      have ha : a = sep := by
        unfold endswithSep at hend
        rw [hconc, List.getLast?_concat] at hend
        simpa using hend
      have hp2 : p = l2 ++ sep :: splitTail p := by
        conv_lhs => rw [← hsum]
        rw [hconc, ha]
        simp
      have hnotail : sep ∉ splitTail p := fun hmem => splitTail_sep_free hmem rfl
      have hfind : rfindAux sep p = some l2.length := by
        conv_lhs => rw [hp2]
        exact rfindAux_last l2 _ hnotail
      have hlen : (splitHead0 p).length = l2.length + 1 := by
        rw [hconc]; simp
      unfold rfindIdx
      rw [hfind]
      show (l2.length : Int) = ((splitHead0 p).length : Int) - 1
      rw [hlen]
      push_cast
      ring

/-- The index-based `_splitext` agrees with its basename-level description. -/
theorem posix_splitext_eq_spec (p : List Char) :
    posix_splitext p = splitextSpec p := by
  have hsum := splitHead0_append_splitTail p
  have happ := rfindAux_append '.' (splitHead0 p) (splitTail p)
  rw [hsum] at happ
  unfold posix_splitext splitextSpec
  rcases hfb : rfindAux '.' (splitTail p) with _ | d
  · -- no dot in the basename: the extension is empty either way
    rw [hfb] at happ
    rcases hh : rfindAux '.' (splitHead0 p) with _ | j
    · rw [hh] at happ
      have hdot : rfindIdx '.' p = -1 := by unfold rfindIdx; rw [happ]
      have hno : ¬ (rfindIdx sep p < rfindIdx '.' p) := by
        rw [hdot]
        unfold rfindIdx
        rcases hs : rfindAux sep p with _ | i
        · show ¬ ((-1 : Int) < -1)
          omega
        · show ¬ ((i : Int) < -1)
          omega
      rw [if_neg hno]
    · rw [hh] at happ
      have hj := rfindAux_bound hh
      have hdot : rfindIdx '.' p = (j : Int) := by unfold rfindIdx; rw [happ]
      rw [hdot, rfindIdx_sep]
      rw [if_neg (by omega)]
  · -- the basename has a last dot at (basename-relative) index d
    rw [hfb] at happ
    have hdb := rfindAux_bound hfb
    have hdot : rfindIdx '.' p = (((splitHead0 p).length + d : Nat) : Int) := by
      unfold rfindIdx; rw [happ]
    have hsep := rfindIdx_sep p
    have hcond : rfindIdx sep p < rfindIdx '.' p := by
      rw [hdot, hsep]; push_cast; omega
    rw [if_pos hcond]
    have htoNat : (rfindIdx '.' p).toNat = (splitHead0 p).length + d := by
      rw [hdot]; exact Int.toNat_ofNat _
    have hstart : (rfindIdx sep p + 1).toNat = (splitHead0 p).length := by
      rw [hsep]
      have : ((splitHead0 p).length : Int) - 1 + 1 = ((splitHead0 p).length : Int) := by ring
      rw [this]
      exact Int.toNat_ofNat _
    have htake := @List.take_append Char (splitHead0 p) (splitTail p) d
    rw [hsum] at htake
    have hdrop2 := @List.drop_append Char (splitHead0 p) (splitTail p) d
    rw [hsum] at hdrop2
    rw [htoNat, hstart, htake, hdrop2, List.drop_left]

/-- Concatenating the two halves of `splitext` restores the input exactly
(plain string concatenation). -/
theorem splitext_concat (p : List Char) :
    (posix_splitext p).1 ++ (posix_splitext p).2 = p := by
  rw [posix_splitext_eq_spec]
  unfold splitextSpec
  rcases hfb : rfindAux '.' (splitTail p) with _ | d
  · simp
  · dsimp only
    by_cases hany : ((splitTail p).take d).any (fun ch => !(ch == '.')) = true
    · rw [if_pos hany]
      dsimp only
      rw [List.append_assoc, List.take_append_drop]
      exact splitHead0_append_splitTail p
    · rw [if_neg hany]
      simp

/-- A non-empty extension starts with the (last) dot and contains no further
dot and no separator. -/
theorem splitext_ext_shape (p : List Char) (h : (posix_splitext p).2 ≠ []) :
    ∃ t, (posix_splitext p).2 = '.' :: t ∧ '.' ∉ t ∧ sep ∉ t := by
  rw [posix_splitext_eq_spec] at h ⊢
  unfold splitextSpec at h ⊢
  rcases hfb : rfindAux '.' (splitTail p) with _ | d
  · rw [hfb] at h
    dsimp only at h
    exact absurd rfl h
  · rw [hfb] at h
    dsimp only at h ⊢
    by_cases hany : ((splitTail p).take d).any (fun ch => !(ch == '.')) = true
    · rw [if_pos hany]
      dsimp only
      obtain ⟨t, ht, hnt⟩ := rfindAux_drop hfb
      have hsplit2 : splitTail p = (splitTail p).take d ++ '.' :: t := by
        conv_lhs => rw [← List.take_append_drop d (splitTail p)]
        rw [ht]
      refine ⟨t, ht, hnt, ?_⟩
      intro hmem
      have hsep2 : sep ∈ splitTail p := by
        rw [hsplit2]
        simp [hmem]
      exact splitTail_sep_free hsep2 rfl
    · rw [if_neg hany] at h
      simp at h

/-- The extension is non-empty exactly when the basename contains a dot
that is preceded (inside the basename) by some non-dot character. -/
theorem splitext_nonempty_iff (p : List Char) :
    (posix_splitext p).2 ≠ [] ↔
      ∃ u v, splitTail p = u ++ '.' :: v ∧ '.' ∉ v ∧ ∃ x ∈ u, ¬(x = '.') := by
  rw [posix_splitext_eq_spec]
  unfold splitextSpec
  rcases hfb : rfindAux '.' (splitTail p) with _ | d
  · dsimp only
    simp only [ne_eq, not_true_eq_false, false_iff]
    rintro ⟨u, v, hb, hnv, -⟩
    have : rfindAux '.' (splitTail p) = some u.length := by
      rw [hb]; exact rfindAux_last u v hnv
    rw [hfb] at this
    cases this
  · dsimp only
    obtain ⟨t, ht, hnt⟩ := rfindAux_drop hfb
    by_cases hany : ((splitTail p).take d).any (fun ch => !(ch == '.')) = true
    · rw [if_pos hany]
      dsimp only
      rw [ht]
      simp only [ne_eq, reduceCtorEq, not_false_eq_true, true_iff]
      refine ⟨(splitTail p).take d, t, ?_, hnt, ?_⟩
      · conv_lhs => rw [← List.take_append_drop d (splitTail p)]
        rw [ht]
      · obtain ⟨x, hx, hxd⟩ := List.any_eq_true.mp hany
        exact ⟨x, hx, by simpa using hxd⟩
    · rw [if_neg hany]
      simp only [ne_eq, not_true_eq_false, false_iff]
      rintro ⟨u, v, hb, hnv, x, hx, hxd⟩
      have hud : rfindAux '.' (splitTail p) = some u.length := by
        rw [hb]; exact rfindAux_last u v hnv
      rw [hfb] at hud
      injection hud with hud
      have hu : (splitTail p).take d = u := by
        rw [hb, hud]; exact List.take_left u _
      rw [hu] at hany
      have hall : ∀ y ∈ u, y = '.' := by simpa using hany
      exact hxd (hall x hx)

/-- Claim C3 (amended): `splitext()` splits on the last `.` of the basename
*provided some character before that dot, inside the basename, is not a
dot*; for a basename whose characters before its last dot are all dots
(e.g. the dotfile `.bashrc`, or `/a/.b`) the extension is empty even though
the basename contains a dot.  A non-empty extension starts with the leading
dot and contains no further dot and no separator (so the split point is the
last dot and it lies in the basename, never in a parent component), and in
all cases plain concatenation reproduces the input:
`stem + extension == p`.  (As stated — extension empty *iff* the basename
contains no dot — the claim fails: see `C3_splitext_counterexample`.) -/
theorem C3_splitext_behaviour (p : List Char) :
    (posix_splitext p).1 ++ (posix_splitext p).2 = p ∧
      ((posix_splitext p).2 ≠ [] →
        ∃ t, (posix_splitext p).2 = '.' :: t ∧ '.' ∉ t ∧ sep ∉ t) ∧
      ((posix_splitext p).2 ≠ [] ↔
        ∃ u v, splitTail p = u ++ '.' :: v ∧ '.' ∉ v ∧ ∃ x ∈ u, ¬(x = '.')) :=
  ⟨splitext_concat p, splitext_ext_shape p, splitext_nonempty_iff p⟩

/-- Counterexample to C3 as stated: the basename of `/a/.b` contains a dot,
yet `splitext` returns an empty extension and does not split. -/
theorem C3_splitext_counterexample :
    '.' ∈ splitTail (s2l "/a/.b") ∧
      posix_splitext (s2l "/a/.b") = (s2l "/a/.b", []) := by
  constructor
  · decide
  · decide

/-- Claim C9: `p.stripext()` is exactly the stem returned by
`p.splitext()`, so `p.stripext() + p.ext == p` under plain string
concatenation, and `stripext` removes at most one extension (the removed
`p.ext` contains at most one dot — the last one). -/
theorem C9_stripext_stem (p : List Char) :
    stripext p = (splitext p).1 ∧ stripext p ++ ext p = p ∧
      (ext p).count '.' ≤ 1 := by
  refine ⟨rfl, splitext_concat p, ?_⟩
  by_cases h : (posix_splitext p).2 = []
  · unfold ext
    rw [h]
    simp
  · obtain ⟨t, ht, hnt, -⟩ := splitext_ext_shape p h
    unfold ext
    rw [ht, List.count_cons]
    have : t.count '.' = 0 := List.count_eq_zero.mpr hnt
    simp [this]

/- ### `normpath`, `abspath` and the relative-path algorithm -/

/-- `p.split('/')` (Python `str.split` on a one-character separator: every
occurrence splits, empty pieces are kept, and `''.split('/') == ['']`). -/
def splitSep : List Char → List (List Char)
  | [] => [[]]
  | c :: cs =>
    let r := splitSep cs
    if c = sep then [] :: r
    else
      match r with
      | g :: gs => (c :: g) :: gs
      | [] => [[c]]

/-- One step of `posixpath.normpath`'s component loop: skip `''` and `'.'`;
append any component that is not `'..'`, or a `'..'` at the start of a
relative path, or a `'..'` stacked on a previous `'..'`; otherwise pop the
accumulator when it is non-empty. -/
def normStep (initialSlashes : Nat) (acc : List (List Char)) (comp : List Char) :
    List (List Char) :=
  if comp = [] ∨ comp = curdir then acc
  else if comp ≠ pardir ∨ (initialSlashes = 0 ∧ acc = []) ∨
      (acc ≠ [] ∧ acc.getLast? = some pardir) then acc ++ [comp]
  else if acc ≠ [] then acc.dropLast
  else acc

/-- `posixpath.normpath` (CPython 2.7): empty input gives `'.'`; between
one and two leading slashes are preserved (POSIX treats exactly two as
special), three or more collapse to one; components are folded through
`normStep` and re-joined with `'/'`; an empty result gives `'.'`. -/
def posix_normpath (p : List Char) : List Char :=
  if p = [] then curdir
  else
    let initialSlashes : Nat :=
      if p.take 1 = [sep] then
        (if p.take 2 = [sep, sep] ∧ p.take 3 ≠ [sep, sep, sep] then 2 else 1)
      else 0
    let newComps := (splitSep p).foldl (normStep initialSlashes) []
    let path := List.replicate initialSlashes sep ++ List.intercalate [sep] newComps
    if path = [] then curdir else path

/-- `posixpath.abspath`, with the process state `os.getcwdu()` passed as an
explicit `cwd` argument:
`if not isabs(path): path = join(cwd, path); return normpath(path)`. -/
def posix_abspath (cwd p : List Char) : List Char :=
  if posix_isabs p = true then posix_normpath p
  else posix_normpath (join2 cwd p)

/-- The `common_index` loop of `Path.relpathto`: walk both component lists
in lock-step and count the matching leading components, comparing each
destination part under the syntax's `normcase`. -/
def commonIndex : List (List Char) → List (List Char) → Nat
  | a :: as, b :: bs => if a = posix_normcase b then commonIndex as bs + 1 else 0
  | _, _ => 0

/-- `Path.relpathto(destination)` (POSIX-bound), with the working directory
made explicit for the two `absolute()` calls:
origin and destination are absolutised, the origin's component list is
`normcase`d, a differing root returns the absolute destination, otherwise
`(len(orig_list) - common_index)` copies of `pardir` are followed by
`dest_list[common_index:]`, an empty segment list gives `curdir`, and the
segments are joined otherwise. -/
def relpathto (cwd origin dest : List Char) : List Char :=
  let origList := splitall (posix_normcase (posix_abspath cwd origin))
  let destList := splitall (posix_abspath cwd dest)
  if origList.headI ≠ posix_normcase destList.headI then posix_abspath cwd dest
  else
    let k := commonIndex origList destList
    let segments := List.replicate (origList.length - k) pardir ++ destList.drop k
    if segments = [] then curdir
    else joinList segments

theorem commonIndex_self : ∀ l : List (List Char), commonIndex l l = l.length := by
  intro l
  induction l with
  | nil => rfl
  | cons a as ih =>
      rw [commonIndex, if_pos (show a = posix_normcase a from rfl), ih]
      rfl

/-- Claim C4: whenever the two absolutised paths have root components that
differ under `normcase` (under POSIX: the `/` and `//` root forms), the
implementation takes the early-return branch and hands back the absolute
form of the destination unchanged.  The embedding is a total function, so
no input raises or produces an error result. -/
theorem C4_relpathto_root_mismatch (cwd origin dest : List Char)
    (h : (splitall (posix_normcase (posix_abspath cwd origin))).headI ≠
      posix_normcase (splitall (posix_abspath cwd dest)).headI) :
    relpathto cwd origin dest = posix_abspath cwd dest := by
  unfold relpathto
  rw [if_pos h]

/-- Witness for C4: `/a` and `//b` sit on the distinct POSIX roots `/` and
`//`, so the result is the absolute destination `//b` itself. -/
theorem C4_relpathto_root_mismatch_witness :
    (splitall (posix_normcase (posix_abspath (s2l "/") (s2l "/a")))).headI ≠
        posix_normcase (splitall (posix_abspath (s2l "/") (s2l "//b"))).headI ∧
      relpathto (s2l "/") (s2l "/a") (s2l "//b") =
        posix_abspath (s2l "/") (s2l "//b") :=
  ⟨by decide, C4_relpathto_root_mismatch _ _ _ (by decide)⟩

/-- Claim C5: with matching roots, `relpathto` returns the join of
`len(orig_list) - k` copies of `pardir` followed by `dest_list[k:]`, where
`k` is the `common_index` at which the `normcase`-compared component lists
first diverge, and the destination components are taken from the
un-`normcase`d list (original case retained); in particular the three POSIX
examples of the claim hold. -/
theorem C5_relpathto_construction (cwd origin dest : List Char)
    (h1 : (splitall (posix_normcase (posix_abspath cwd origin))).headI =
      posix_normcase (splitall (posix_abspath cwd dest)).headI)
    (h2 : List.replicate
          ((splitall (posix_normcase (posix_abspath cwd origin))).length -
            commonIndex (splitall (posix_normcase (posix_abspath cwd origin)))
              (splitall (posix_abspath cwd dest))) pardir ++
        (splitall (posix_abspath cwd dest)).drop
          (commonIndex (splitall (posix_normcase (posix_abspath cwd origin)))
            (splitall (posix_abspath cwd dest))) ≠ []) :
    relpathto cwd origin dest =
      joinList (List.replicate
          ((splitall (posix_normcase (posix_abspath cwd origin))).length -
            commonIndex (splitall (posix_normcase (posix_abspath cwd origin)))
              (splitall (posix_abspath cwd dest))) pardir ++
        (splitall (posix_abspath cwd dest)).drop
          (commonIndex (splitall (posix_normcase (posix_abspath cwd origin)))
            (splitall (posix_abspath cwd dest)))) ∧
      relpathto (s2l "/") (s2l "/a/b/c") (s2l "/a/d/e") = s2l "../../d/e" ∧
      relpathto (s2l "/") (s2l "/a/b/c") (s2l "/a") = s2l "../.." ∧
      relpathto (s2l "/") (s2l "/a") (s2l "/a/b/c") = s2l "b/c" := by
  refine ⟨?_, by decide, by decide, by decide⟩
  unfold relpathto
  rw [if_neg (not_not_intro h1), if_neg h2]

/-- Witness for C5 at the documentation's example pair of absolute paths. -/
theorem C5_relpathto_construction_witness :
    relpathto (s2l "/") (s2l "/a/b/c") (s2l "/a/d/e") = s2l "../../d/e" := by
  have h := (C5_relpathto_construction (s2l "/") (s2l "/a/b/c") (s2l "/a/d/e")
    (by decide) (by decide)).2.1
  exact h

/-- Claim C6: for an absolute path, `p.relpathto(p)` yields the syntax's
`curdir` (`Path('.')`): both sides absolutise to the same component list,
`common_index` runs to the full length, the segment list is empty, and the
implementation returns `curdir`. -/
theorem C6_relpathto_self (cwd p : List Char) (_h : posix_isabs p = true) :
    relpathto cwd p p = curdir := by
  unfold relpathto posix_normcase
  rw [if_neg (not_not_intro rfl)]
  rw [commonIndex_self]
  simp

/-- Witness for C6 at the absolute path `/a`. -/
theorem C6_relpathto_self_witness :
    posix_isabs (s2l "/a") = true ∧
      relpathto (s2l "/") (s2l "/a") (s2l "/a") = curdir :=
  ⟨by decide, C6_relpathto_self _ _ (by decide)⟩

/- ### Syntax-module binding (claim C10) -/

/-- The path-syntax module interface consumed by `Path`: the `os.path`
operations that the wrapped methods call (`Path._path`). -/
structure PathMod where
  joinF : List Char → List Char → List Char
  splitF : List Char → List Char × List Char
  splitdriveF : List Char → List Char × List Char
  splitextF : List Char → List Char × List Char
  normcaseF : List Char → List Char
  normpathF : List Char → List Char
  abspathF : List Char → List Char
  curdirF : List Char
  pardirF : List Char

/-- A `Path` value: its concrete class is identified by the bound syntax
module (`type(self)._path`), its content is the character payload.  Every
operation below builds its result with the receiver's own module — that is
what `wrap`'s `type(self)(function(self, ...))` and the explicit
`type(self)(...)` calls do — and no operation mutates the receiver (the
embedding is pure, mirroring the immutability of the `unicode` base). -/
structure PathVal where
  mod : PathMod
  chars : List Char

/-- `Path.__div__` / `Path.__truediv__` / `Path.joinpath`
(`wrap(pmethod('join'))`, all three bound to the same function). -/
def PathVal.joinV (p : PathVal) (b : List Char) : PathVal :=
  ⟨p.mod, p.mod.joinF p.chars b⟩

/-- `Path.absolute` (`wrap(pmethod('abspath'))`). -/
def PathVal.absoluteV (p : PathVal) : PathVal :=
  ⟨p.mod, p.mod.abspathF p.chars⟩

/-- `Path.normcase` (`wrap(pmethod('normcase'))`). -/
def PathVal.normcaseV (p : PathVal) : PathVal :=
  ⟨p.mod, p.mod.normcaseF p.chars⟩

/-- `Path.normalize` (`wrap(pmethod('normpath'))`). -/
def PathVal.normalizeV (p : PathVal) : PathVal :=
  ⟨p.mod, p.mod.normpathF p.chars⟩

/-- `Path.splitpath`: `return type(self)(parent), child`. -/
def PathVal.splitpathV (p : PathVal) : PathVal × List Char :=
  (⟨p.mod, (p.mod.splitF p.chars).1⟩, (p.mod.splitF p.chars).2)

/-- `Path.splitdrive`: `return type(self)(drive), rel`. -/
def PathVal.splitdriveV (p : PathVal) : PathVal × List Char :=
  (⟨p.mod, (p.mod.splitdriveF p.chars).1⟩, (p.mod.splitdriveF p.chars).2)

/-- `Path.splitext`: `return type(self)(filename), extension`. -/
def PathVal.splitextV (p : PathVal) : PathVal × List Char :=
  (⟨p.mod, (p.mod.splitextF p.chars).1⟩, (p.mod.splitextF p.chars).2)

/-- The `splitall` loop over an arbitrary bound module, fuelled as in
`splitallFuel` (for the POSIX module `splitall_fuel_sufficient` shows the
fuel is never exhausted). -/
def splitallG (m : PathMod) : Nat → List Char → List (List Char)
  | 0, loc => [loc]
  | n + 1, loc =>
    if loc = m.curdirF ∨ loc = m.pardirF then [loc]
    else if (m.splitF loc).1 = loc then [loc]
    else splitallG m n (m.splitF loc).1 ++ [(m.splitF loc).2]

def joinListG (m : PathMod) : List (List Char) → List Char
  | [] => []
  | a :: rest => rest.foldl m.joinF a

def commonIndexG (m : PathMod) : List (List Char) → List (List Char) → Nat
  | a :: as, b :: bs => if a = m.normcaseF b then commonIndexG m as bs + 1 else 0
  | _, _ => 0

/-- `Path.relpathto` over an arbitrary bound module.  Each of its three
return sites carries the receiver's class: the early return hands back
`type(self)(destination).absolute()`, the empty-segment case returns
`type(self)(curdir)`, and the main case returns `type(self)(join(...))`. -/
def PathVal.relpathtoV (p : PathVal) (dst : List Char) : PathVal :=
  let destination := (PathVal.mk p.mod dst).absoluteV
  let origList := splitallG p.mod (p.absoluteV.normcaseV.chars.length + 1)
    p.absoluteV.normcaseV.chars
  let destList := splitallG p.mod (destination.chars.length + 1) destination.chars
  if origList.headI ≠ p.mod.normcaseF destList.headI then destination
  else
    let k := commonIndexG p.mod origList destList
    let segments := List.replicate (origList.length - k) p.mod.pardirF ++
      destList.drop k
    if segments = [] then ⟨p.mod, p.mod.curdirF⟩
    else ⟨p.mod, joinListG p.mod segments⟩

/-- Claim C10: every path-producing operation — joining via `/` or
`joinpath`, `absolute`, `normcase`, `normalize`, `splitpath`'s parent,
`splitdrive`'s drive, `splitext`'s stem, `relpathto`'s result — returns a
value bound to the receiver's own syntax module (the same concrete `Path`
subclass), for any module and any receiver; the receiver itself is never
modified, the join result being built from (not into) its payload. -/
theorem C10_same_class (m : PathMod) (s b d : List Char) :
    (PathVal.joinV ⟨m, s⟩ b).mod = m ∧
      (PathVal.absoluteV ⟨m, s⟩).mod = m ∧
      (PathVal.normcaseV ⟨m, s⟩).mod = m ∧
      (PathVal.normalizeV ⟨m, s⟩).mod = m ∧
      ((PathVal.splitpathV ⟨m, s⟩).1).mod = m ∧
      ((PathVal.splitdriveV ⟨m, s⟩).1).mod = m ∧
      ((PathVal.splitextV ⟨m, s⟩).1).mod = m ∧
      (PathVal.relpathtoV ⟨m, s⟩ d).mod = m ∧
      (PathVal.joinV ⟨m, s⟩ b).chars = m.joinF s b := by
  refine ⟨rfl, rfl, rfl, rfl, rfl, rfl, rfl, ?_, rfl⟩
  unfold PathVal.relpathtoV
  dsimp only
  split
  · rfl
  · split
    · rfl
    · rfl

end Pathobject

